import Mathlib

/-!
Verification of the `tokenizer` package (a state-function lexical scanner).

Strings are modelled as lists of bytes (`List Nat`, each < 256), since the
scanner's positions and widths are byte offsets into a UTF-8 encoded input.
Go's `Pos` type is `int`; it is modelled by `Int` (64-bit overflow is out of
scope for these inputs).  The token channel is modelled explicitly by a
`Chan` value; a send appends to its pending-token queue and `close` sets its
`closed` flag, so a receive on a closed, empty channel yields the zero-value
`Token` exactly as in Go.
-/

namespace tokenizer

/-- Go `unicode/utf8.RuneError` (U+FFFD, the replacement character). -/
def RuneError : Int := 0xFFFD

/-- `const eof = -1` -/
def eof : Int := -1

/-- `const newline = '\n'` -/
def newline : Int := 10

/-- Go `unicode/utf8.DecodeRuneInString`, over a byte list: returns the first
code point of the list and the number of bytes it occupies.  Empty input
yields `(RuneError, 0)`; an invalid, overlong, surrogate or truncated
encoding yields `(RuneError, 1)`. -/
def decodeRune : List Nat → Int × Nat
  | [] => (RuneError, 0)
  | b0 :: rest =>
    if b0 < 0x80 then ((b0 : Int), 1)
    else if b0 < 0xC2 then (RuneError, 1)
    else if b0 < 0xE0 then
      match rest with
      | b1 :: _ =>
        if 0x80 ≤ b1 ∧ b1 ≤ 0xBF then
          ((((b0 % 0x20) * 0x40 + b1 % 0x40 : Nat) : Int), 2)
        else (RuneError, 1)
      | [] => (RuneError, 1)
    else if b0 < 0xF0 then
      match rest with
      | b1 :: b2 :: _ =>
        if (if b0 = 0xE0 then 0xA0 else 0x80) ≤ b1 ∧
           b1 ≤ (if b0 = 0xED then 0x9F else 0xBF) ∧
           0x80 ≤ b2 ∧ b2 ≤ 0xBF then
          ((((b0 % 0x10) * 0x1000 + (b1 % 0x40) * 0x40 + b2 % 0x40 : Nat) : Int), 3)
        else (RuneError, 1)
      | _ => (RuneError, 1)
    else if b0 < 0xF5 then
      match rest with
      | b1 :: b2 :: b3 :: _ =>
        if (if b0 = 0xF0 then 0x90 else 0x80) ≤ b1 ∧
           b1 ≤ (if b0 = 0xF4 then 0x8F else 0xBF) ∧
           0x80 ≤ b2 ∧ b2 ≤ 0xBF ∧ 0x80 ≤ b3 ∧ b3 ≤ 0xBF then
          ((((b0 % 0x8) * 0x40000 + (b1 % 0x40) * 0x1000 + (b2 % 0x40) * 0x40 + b3 % 0x40 : Nat) : Int), 4)
        else (RuneError, 1)
      | _ => (RuneError, 1)
    else (RuneError, 1)

/-- Sequential decode of a whole byte string (Go's `range` over a string),
fuelled by the string's length: each step consumes at least one byte, so
`length` fuel always suffices. -/
def decodeRunesAux : Nat → List Nat → List Int
  | 0, _ => []
  | _, [] => []
  | n + 1, b :: rest =>
    let rw := decodeRune (b :: rest)
    rw.1 :: decodeRunesAux n (rest.drop (rw.2 - 1))

/-- All code points of a byte string, in order. -/
def decodeRunes (s : List Nat) : List Int := decodeRunesAux s.length s

/-- Go `strings.ContainsRune s r`: membership of `r` among the decoded code
points of `s` (for `r = RuneError` this also matches invalid sequences, and
an invalid `r` such as `-1` is never contained — both exactly as in Go). -/
def containsRune (s : List Nat) (r : Int) : Bool := (decodeRunes s).contains r

/-- Go slice expression `s[lo:hi]` over a byte list. -/
def goSlice (s : List Nat) (lo hi : Int) : List Nat := (s.take hi.toNat).drop lo.toNat

/-- Go `strings.Count s "\n"`: the number of newline bytes in `s`. -/
def countNl (s : List Nat) : Nat := s.count 10

/-- The `TokenType` interface: a category name (`Type()`) and the
`CountNewLines()` flag.  Concrete implementations are values of this
structure; the built-in `tokenType` always answers `false`, other
implementations may answer `true`. -/
structure TokenTy where
  typ : String
  countNewLines : Bool
deriving DecidableEq

/-- `Error = tokenType{"ERR"}` (built-in `tokenType.CountNewLines` is false). -/
def Error : TokenTy := { typ := "ERR", countNewLines := false }

/-- `EOF = tokenType{"EOF"}` -/
def EOF : TokenTy := { typ := "EOF", countNewLines := false }

/-- `Token` struct.  The `typ` field is a Go interface value, hence nullable:
`none` models the nil interface of a zero-value `Token`. -/
structure Token where
  typ : Option TokenTy
  val : List Nat
  pos : Int
  line : Int
deriving DecidableEq

/-- The zero value of `Token`, as produced by receiving from a closed channel. -/
def zeroToken : Token := { typ := none, val := [], pos := 0, line := 0 }

/-- The `Tokenizer` struct's data fields.  Go's `end` field (never used by any
method) is named `endP` here because `end` is reserved in Lean.  The `state`
function and the `tokens` channel are modelled separately (see `run`, `Chan`).
`New` omits initializers for `start`, `end`, `pos`, `oldPos`, `width`, `line`,
so they take Go's zero value 0. -/
structure Tokenizer where
  name : String
  input : List Nat
  start : Int
  endP : Int
  pos : Int
  oldPos : Int
  width : Int
  line : Int
deriving DecidableEq

/-- `New(name, initialState, input)`: all numeric fields start at 0 (Go zero
values; in particular `line` is NOT initialized to 1).  The `initialState`
argument and the spawned `go t.run()` are modelled by `run` below. -/
def New (name : String) (input : List Nat) : Tokenizer :=
  { name := name, input := input, start := 0, endP := 0, pos := 0,
    oldPos := 0, width := 0, line := 0 }

/-- `NextRune`: note the guard is `t.pos > len(t.input)` (strict), so at
`pos = len` the decode runs on the empty remainder and yields
`(RuneError, 0)` rather than the `eof` sentinel. -/
def NextRune (t : Tokenizer) : Int × Tokenizer :=
  if t.pos > (t.input.length : Int) then
    (eof, { t with width := 0 })
  else
    let rw := decodeRune (t.input.drop t.pos.toNat)
    let t1 : Tokenizer := { t with width := (rw.2 : Int), pos := t.pos + (rw.2 : Int) }
    if rw.1 = newline then (rw.1, { t1 with line := t1.line + 1 })
    else (rw.1, t1)

/-- `Backup`: steps back by the recorded width; decrements `line` when the
undone byte (now at `pos`) is a single-byte newline.  Go indexes
`t.input[t.pos]` only when `t.width == 1`; the `getD` default is never hit in
states reachable under the usage contract. -/
def Backup (t : Tokenizer) : Tokenizer :=
  let t1 : Tokenizer := { t with pos := t.pos - t.width }
  if t.width = 1 ∧ t1.input.getD t1.pos.toNat 0 = 10 then
    { t1 with line := t1.line - 1 }
  else t1

/-- `Peek`: `NextRune` followed by `Backup`. -/
def Peek (t : Tokenizer) : Int × Tokenizer :=
  let rt := NextRune t
  (rt.1, Backup rt.2)

/-- `Emit(tt)`: the sent token is returned in place of the channel send; then
the bulk newline rescan for categories with `CountNewLines()`, then
`start = pos`. -/
def Emit (t : Tokenizer) (tt : TokenTy) : Token × Tokenizer :=
  let tok : Token :=
    { typ := some tt, val := goSlice t.input t.start t.pos, pos := t.start, line := t.line }
  let t1 : Tokenizer :=
    if tt.countNewLines then
      { t with line := t.line + (countNl (goSlice t.input t.start t.pos) : Int) }
    else t
  (tok, { t1 with start := t1.pos })

/-- `Ignore`: advances `line` by the newline count of the skipped span and
resets `start`. -/
def Ignore (t : Tokenizer) : Tokenizer :=
  let t1 : Tokenizer :=
    { t with line := t.line + (countNl (goSlice t.input t.start t.pos) : Int) }
  { t1 with start := t1.pos }

/-- `MatchOne(alphabet)`. -/
def MatchOne (t : Tokenizer) (alphabet : List Nat) : Bool × Tokenizer :=
  let rt := NextRune t
  if containsRune alphabet rt.1 then (true, rt.2)
  else (false, Backup rt.2)

/-- `MatchMany(alphabet)`: the Go `for` loop, fuelled.  `none` means the loop
has not returned within `fuel` iterations; a loop that returns for no fuel is
an infinite loop in Go. -/
def MatchMany (fuel : Nat) (t : Tokenizer) (alphabet : List Nat) : Option Tokenizer :=
  match fuel with
  | 0 => none
  | fuel + 1 =>
    let rt := NextRune t
    if containsRune alphabet rt.1 then MatchMany fuel rt.2 alphabet
    else some (Backup rt.2)

/-- The token channel: queue of tokens sent but not yet received, plus the
closed flag set by `close(t.tokens)`. -/
structure Chan where
  buf : List Token
  closed : Bool
deriving DecidableEq

/-- Channel send of a batch of tokens. -/
def send (c : Chan) (toks : List Token) : Chan := { c with buf := c.buf ++ toks }

/-- Channel receive: the queued token if any; the zero-value `Token` if the
channel is closed and empty; `none` (the receiver blocks) otherwise. -/
def recv (c : Chan) : Option (Token × Chan) :=
  match c.buf with
  | tok :: rest => some (tok, { c with buf := rest })
  | [] => if c.closed then some (zeroToken, c) else none

/-- `Next()`: receives a token (`tkn := <-t.tokens`), then `t.oldPos = t.pos`.
`none` means the call blocks (channel open and empty). -/
def Next (t : Tokenizer) (c : Chan) : Option (Token × Tokenizer × Chan) :=
  match recv c with
  | some (tok, c1) => some (tok, { t with oldPos := t.pos }, c1)
  | none => none

/-- `Drain()`: `for range t.tokens {}` — consumes buffered tokens and returns
once the channel is closed; `none` means it blocks forever (channel never
closed).  No field of `t` other than the channel is touched. -/
def Drain (t : Tokenizer) (c : Chan) : Option (Tokenizer × Chan) :=
  if c.closed then some (t, { c with buf := [] }) else none

/-- A state function: from the engine, the next state function (or `none`,
the terminal marker), the updated engine, and the tokens it sent. -/
inductive StateFn where
  | mk : (Tokenizer → Option StateFn × Tokenizer × List Token) → StateFn

/-- `run()`: `for t.state != nil { t.state = t.state(t) }; close(t.tokens)`.
Fuelled; `none` means the loop is still running after `fuel` iterations. -/
def run : Nat → Option StateFn → Tokenizer → Chan → Option (Tokenizer × Chan)
  | _, none, t, c => some (t, { c with closed := true })
  | 0, some _, _, _ => none
  | fuel + 1, some (StateFn.mk f), t, c =>
    let r := f t
    run fuel r.1 r.2.1 (send c r.2.2)

/-- The decoded width never exceeds the number of available bytes, and is at
least 1 on non-empty input. -/
theorem decode_width_bounds (l : List Nat) :
    (decodeRune l).2 ≤ l.length ∧ (l ≠ [] → 1 ≤ (decodeRune l).2) := by
  rcases l with _ | ⟨b0, rest⟩
  · simp [decodeRune]
  simp only [decodeRune]
  by_cases h1 : b0 < 0x80
  · rw [if_pos h1]; simp
  rw [if_neg h1]
  by_cases h2 : b0 < 0xC2
  · rw [if_pos h2]; simp
  rw [if_neg h2]
  by_cases h3 : b0 < 0xE0
  · rw [if_pos h3]
    rcases rest with _ | ⟨b1, tl⟩
    · simp
    simp only []
    by_cases ha : 0x80 ≤ b1 ∧ b1 ≤ 0xBF
    · rw [if_pos ha]; simp
    · rw [if_neg ha]; simp
  rw [if_neg h3]
  by_cases h4 : b0 < 0xF0
  · rw [if_pos h4]
    rcases rest with _ | ⟨b1, _ | ⟨b2, tl⟩⟩
    · simp
    · simp
    simp only []
    by_cases ha : (if b0 = 0xE0 then 0xA0 else 0x80) ≤ b1 ∧
        b1 ≤ (if b0 = 0xED then 0x9F else 0xBF) ∧ 0x80 ≤ b2 ∧ b2 ≤ 0xBF
    · rw [if_pos ha]; simp
    · rw [if_neg ha]; simp
  rw [if_neg h4]
  by_cases h5 : b0 < 0xF5
  · rw [if_pos h5]
    rcases rest with _ | ⟨b1, _ | ⟨b2, _ | ⟨b3, tl⟩⟩⟩
    · simp
    · simp
    · simp
    simp only []
    by_cases ha : (if b0 = 0xF0 then 0x90 else 0x80) ≤ b1 ∧
        b1 ≤ (if b0 = 0xF4 then 0x8F else 0xBF) ∧ 0x80 ≤ b2 ∧ b2 ≤ 0xBF ∧
        0x80 ≤ b3 ∧ b3 ≤ 0xBF
    · rw [if_pos ha]; simp
    · rw [if_neg ha]; simp
  · rw [if_neg h5]; simp

/-- `getD` at `n` is the head of the `n`-dropped suffix. -/
theorem getD_eq_headD_drop (l : List Nat) (n : Nat) : l.getD n 0 = (l.drop n).headD 0 := by
  induction n generalizing l with
  | zero => cases l <;> rfl
  | succ n ih => cases l with
    | nil => rfl
    | cons b tl => simp only [List.getD_cons_succ, List.drop_succ_cons]; exact ih tl

/-- The value of a well-formed 3-byte sequence is never the newline. -/
theorem size3_ne_ten (b0 b1 b2 : Nat) (h0 : 0xE0 ≤ b0) (h1 : b0 < 0xF0)
    (hacc : (if b0 = 0xE0 then 0xA0 else 0x80) ≤ b1) (hhi : b1 ≤ 0xBF) :
    b0 % 0x10 * 0x1000 + b1 % 0x40 * 0x40 + b2 % 0x40 ≠ 10 := by
  by_cases hE : b0 = 0xE0
  · subst hE; simp at hacc; omega
  · rw [if_neg hE] at hacc; omega

/-- The value of a well-formed 4-byte sequence is never the newline. -/
theorem size4_ne_ten (b0 b1 b2 b3 : Nat) (h0 : 0xF0 ≤ b0) (h1 : b0 < 0xF5)
    (hacc : (if b0 = 0xF0 then 0x90 else 0x80) ≤ b1) (hhi : b1 ≤ 0xBF) :
    b0 % 0x8 * 0x40000 + b1 % 0x40 * 0x1000 + b2 % 0x40 * 0x40 + b3 % 0x40 ≠ 10 := by
  by_cases hF : b0 = 0xF0
  · subst hF; simp at hacc; omega
  · rw [if_neg hF] at hacc; omega

/-- The decoded code point is the newline exactly when the width is 1 and the
first byte is the newline byte: per-rune line counting in `NextRune` and the
byte test in `Backup` look at the same condition. -/
theorem decode_ten_iff (l : List Nat) :
    (decodeRune l).1 = 10 ↔ ((decodeRune l).2 = 1 ∧ l.headD 0 = 10) := by
  rcases l with _ | ⟨b0, rest⟩
  · simp [decodeRune, RuneError]
  simp only [decodeRune, List.headD_cons]
  by_cases h1 : b0 < 0x80
  · rw [if_pos h1]; simp; omega
  rw [if_neg h1]
  by_cases h2 : b0 < 0xC2
  · rw [if_pos h2]; simp [RuneError]; omega
  rw [if_neg h2]
  by_cases h3 : b0 < 0xE0
  · rw [if_pos h3]
    rcases rest with _ | ⟨b1, tl⟩
    · simp [RuneError]; omega
    simp only []
    by_cases ha : 0x80 ≤ b1 ∧ b1 ≤ 0xBF
    · rw [if_pos ha]; simp; omega
    · rw [if_neg ha]; simp [RuneError]; omega
  rw [if_neg h3]
  by_cases h4 : b0 < 0xF0
  · rw [if_pos h4]
    rcases rest with _ | ⟨b1, _ | ⟨b2, tl⟩⟩
    · simp [RuneError]; omega
    · simp [RuneError]; omega
    simp only []
    by_cases ha : (if b0 = 0xE0 then 0xA0 else 0x80) ≤ b1 ∧
        b1 ≤ (if b0 = 0xED then 0x9F else 0xBF) ∧ 0x80 ≤ b2 ∧ b2 ≤ 0xBF
    · rw [if_pos ha]
      have hhi : b1 ≤ 0xBF := le_trans ha.2.1 (by split <;> omega)
      have hv := size3_ne_ten b0 b1 b2 (by omega) h4 ha.1 hhi
      simp
      omega
    · rw [if_neg ha]; simp [RuneError]; omega
  rw [if_neg h4]
  by_cases h5 : b0 < 0xF5
  · rw [if_pos h5]
    rcases rest with _ | ⟨b1, _ | ⟨b2, _ | ⟨b3, tl⟩⟩⟩
    · simp [RuneError]; omega
    · simp [RuneError]; omega
    · simp [RuneError]; omega
    simp only []
    by_cases ha : (if b0 = 0xF0 then 0x90 else 0x80) ≤ b1 ∧
        b1 ≤ (if b0 = 0xF4 then 0x8F else 0xBF) ∧ 0x80 ≤ b2 ∧ b2 ≤ 0xBF ∧
        0x80 ≤ b3 ∧ b3 ≤ 0xBF
    · rw [if_pos ha]
      have hhi : b1 ≤ 0xBF := le_trans ha.2.1 (by split <;> omega)
      have hv := size4_ne_ten b0 b1 b2 b3 (by omega) h5 ha.1 hhi
      simp
      omega
    · rw [if_neg ha]; simp [RuneError]; omega
  · rw [if_neg h5]; simp [RuneError]; omega

theorem Backup_pos (t : Tokenizer) : (Backup t).pos = t.pos - t.width := by
  simp only [Backup]; split <;> rfl

theorem Backup_start (t : Tokenizer) : (Backup t).start = t.start := by
  simp only [Backup]; split <;> rfl

theorem Backup_input (t : Tokenizer) : (Backup t).input = t.input := by
  simp only [Backup]; split <;> rfl

theorem Backup_width (t : Tokenizer) : (Backup t).width = t.width := by
  simp only [Backup]; split <;> rfl

theorem NextRune_input (t : Tokenizer) : (NextRune t).2.input = t.input := by
  simp only [NextRune]; split
  · rfl
  · split <;> rfl

theorem NextRune_start (t : Tokenizer) : (NextRune t).2.start = t.start := by
  simp only [NextRune]; split
  · rfl
  · split <;> rfl

/-- When `pos > len`, the remainder is empty, so its decode is `(RuneError, 0)`. -/
theorem drop_past_end (t : Tokenizer) (h0 : 0 ≤ t.pos)
    (hgt : t.pos > (t.input.length : Int)) : t.input.drop t.pos.toNat = [] := by
  apply List.drop_eq_nil_of_le
  omega

theorem NextRune_width (t : Tokenizer) (h0 : 0 ≤ t.pos) :
    (NextRune t).2.width = ((decodeRune (t.input.drop t.pos.toNat)).2 : Int) := by
  simp only [NextRune]; split
  · rename_i hgt
    rw [drop_past_end t h0 hgt]
    rfl
  · split <;> rfl

theorem NextRune_pos (t : Tokenizer) (h0 : 0 ≤ t.pos) :
    (NextRune t).2.pos = t.pos + ((decodeRune (t.input.drop t.pos.toNat)).2 : Int) := by
  simp only [NextRune]; split
  · rename_i hgt
    rw [drop_past_end t h0 hgt]
    simp [decodeRune]
  · split <;> rfl

theorem NextRune_line (t : Tokenizer) (h0 : 0 ≤ t.pos) :
    (NextRune t).2.line
      = t.line + (if (decodeRune (t.input.drop t.pos.toNat)).1 = 10 then 1 else 0) := by
  simp only [NextRune]; split
  · rename_i hgt
    rw [drop_past_end t h0 hgt]
    simp [decodeRune, RuneError]
  · split
    · rename_i h
      simp only [newline] at h
      rw [if_pos h]
    · rename_i h
      simp only [newline] at h
      rw [if_neg h]
      simp

theorem NextRune_fst (t : Tokenizer) (hle : t.pos ≤ (t.input.length : Int)) :
    (NextRune t).1 = (decodeRune (t.input.drop t.pos.toNat)).1 := by
  simp only [NextRune]
  rw [if_neg (by omega)]
  split <;> rfl

/-- Reading then immediately backing up restores the byte position exactly. -/
theorem readBackup_pos (t : Tokenizer) (h0 : 0 ≤ t.pos) :
    (Backup (NextRune t).2).pos = t.pos := by
  rw [Backup_pos, NextRune_pos t h0, NextRune_width t h0]
  ring

theorem readBackup_start (t : Tokenizer) : (Backup (NextRune t).2).start = t.start := by
  rw [Backup_start, NextRune_start]

theorem readBackup_input (t : Tokenizer) : (Backup (NextRune t).2).input = t.input := by
  rw [Backup_input, NextRune_input]

/-- Reading then immediately backing up restores the line counter exactly:
`NextRune` increments `line` exactly when the decoded code point is the
newline, which by `decode_ten_iff` is exactly when `Backup`'s byte test
(`width == 1` and the byte at the restored position is `'\n'`) fires. -/
theorem readBackup_line (t : Tokenizer) (h0 : 0 ≤ t.pos) :
    (Backup (NextRune t).2).line = t.line := by
  have hw := NextRune_width t h0
  have hp := NextRune_pos t h0
  have hl := NextRune_line t h0
  have hi := NextRune_input t
  simp only [Backup]
  split
  · rename_i hcond
    rw [hw, hp, hi] at hcond
    have hpp : t.pos + ((decodeRune (t.input.drop t.pos.toNat)).2 : Int)
        - ((decodeRune (t.input.drop t.pos.toNat)).2 : Int) = t.pos := by ring
    rw [hpp, getD_eq_headD_drop] at hcond
    have hten : (decodeRune (t.input.drop t.pos.toNat)).1 = 10 := by
      apply (decode_ten_iff _).mpr
      exact ⟨by exact_mod_cast hcond.1, hcond.2⟩
    simp only [hl, if_pos hten]
    ring
  · rename_i hcond
    rw [hw, hp, hi] at hcond
    have hpp : t.pos + ((decodeRune (t.input.drop t.pos.toNat)).2 : Int)
        - ((decodeRune (t.input.drop t.pos.toNat)).2 : Int) = t.pos := by ring
    rw [hpp, getD_eq_headD_drop] at hcond
    have hten : ¬ (decodeRune (t.input.drop t.pos.toNat)).1 = 10 := by
      intro h
      have h2 := (decode_ten_iff _).mp h
      exact hcond ⟨by exact_mod_cast h2.1, h2.2⟩
    simp only [hl, if_neg hten]
    ring

/-- `(Peek t).2` is exactly a read followed by a backup. -/
theorem Peek_snd (t : Tokenizer) : (Peek t).2 = Backup (NextRune t).2 := rfl

/-- A well-behaved sequence of engine operations, as constrained by the
state-function contract: `Backup` occurs only immediately after a read —
either fused as `readBackup`, or internally in `peek`, `matchOne`,
`matchMany`. -/
inductive ScanOp where
  | next : ScanOp
  | peek : ScanOp
  | readBackup : ScanOp
  | matchOne (alphabet : List Nat) : ScanOp
  | matchMany (fuel : Nat) (alphabet : List Nat) : ScanOp
  | emit (tt : TokenTy) : ScanOp
  | ignore : ScanOp

/-- One engine operation; returns the updated engine and the emitted tokens
(`none` when a `matchMany` loop fails to return within its fuel). -/
def execOp : ScanOp → Tokenizer → Option (Tokenizer × List Token)
  | ScanOp.next, t => some ((NextRune t).2, [])
  | ScanOp.peek, t => some ((Peek t).2, [])
  | ScanOp.readBackup, t => some (Backup (NextRune t).2, [])
  | ScanOp.matchOne a, t => some ((MatchOne t a).2, [])
  | ScanOp.matchMany f a, t => (MatchMany f t a).map (fun t2 => (t2, []))
  | ScanOp.emit tt, t => some ((Emit t tt).2, [(Emit t tt).1])
  | ScanOp.ignore, t => some (Ignore t, [])

/-- Run a sequence of well-behaved operations, collecting emitted tokens. -/
def execOps : List ScanOp → Tokenizer → Option (Tokenizer × List Token)
  | [], t => some (t, [])
  | op :: ops, t =>
    match execOp op t with
    | none => none
    | some (t1, toks1) =>
      match execOps ops t1 with
      | none => none
      | some (t2, toks2) => some (t2, toks1 ++ toks2)

/-- The positional invariant `0 ≤ start ≤ pos ≤ len(input)`. -/
def Inv (t : Tokenizer) : Prop :=
  0 ≤ t.start ∧ t.start ≤ t.pos ∧ t.pos ≤ (t.input.length : Int)

theorem NextRune_inv (t : Tokenizer) (h : Inv t) : Inv (NextRune t).2 := by
  obtain ⟨h1, h2, h3⟩ := h
  have h0 : 0 ≤ t.pos := le_trans h1 h2
  have hwle := (decode_width_bounds (t.input.drop t.pos.toNat)).1
  rw [List.length_drop] at hwle
  refine ⟨?_, ?_, ?_⟩
  · rw [NextRune_start]; exact h1
  · rw [NextRune_start, NextRune_pos t h0]; omega
  · rw [NextRune_pos t h0, NextRune_input]; omega

theorem readBackup_inv (t : Tokenizer) (h : Inv t) : Inv (Backup (NextRune t).2) := by
  obtain ⟨h1, h2, h3⟩ := h
  have h0 : 0 ≤ t.pos := le_trans h1 h2
  refine ⟨?_, ?_, ?_⟩
  · rw [readBackup_start]; exact h1
  · rw [readBackup_start, readBackup_pos t h0]; exact h2
  · rw [readBackup_pos t h0, readBackup_input]; exact h3

theorem MatchOne_inv (t : Tokenizer) (a : List Nat) (h : Inv t) : Inv (MatchOne t a).2 := by
  simp only [MatchOne]
  split
  · exact NextRune_inv t h
  · exact readBackup_inv t h

theorem MatchMany_inv (fuel : Nat) (t : Tokenizer) (a : List Nat) (t2 : Tokenizer)
    (hm : MatchMany fuel t a = some t2) (h : Inv t) : Inv t2 := by
  induction fuel generalizing t with
  | zero => simp [MatchMany] at hm
  | succ n ih =>
    simp only [MatchMany] at hm
    split at hm
    · exact ih _ hm (NextRune_inv t h)
    · cases hm
      exact readBackup_inv t h

theorem Emit_inv (t : Tokenizer) (tt : TokenTy) (h : Inv t) : Inv (Emit t tt).2 := by
  obtain ⟨h1, h2, h3⟩ := h
  simp only [Emit, Inv]
  split <;> simp <;> omega

theorem Ignore_inv (t : Tokenizer) (h : Inv t) : Inv (Ignore t) := by
  obtain ⟨h1, h2, h3⟩ := h
  simp only [Ignore, Inv]
  simp
  omega

theorem execOp_inv (op : ScanOp) (t t2 : Tokenizer) (toks : List Token)
    (hx : execOp op t = some (t2, toks)) (h : Inv t) : Inv t2 := by
  cases op with
  | next => simp only [execOp] at hx; cases hx; exact NextRune_inv t h
  | peek => simp only [execOp] at hx; cases hx; rw [Peek_snd]; exact readBackup_inv t h
  | readBackup => simp only [execOp] at hx; cases hx; exact readBackup_inv t h
  | matchOne a => simp only [execOp] at hx; cases hx; exact MatchOne_inv t a h
  | matchMany f a =>
    simp only [execOp] at hx
    cases hmm : MatchMany f t a with
    | none => rw [hmm] at hx; simp at hx
    | some t3 =>
      rw [hmm] at hx
      simp only [Option.map_some'] at hx
      cases hx
      exact MatchMany_inv f t a t2 hmm h
  | emit tt => simp only [execOp] at hx; cases hx; exact Emit_inv t tt h
  | ignore => simp only [execOp] at hx; cases hx; exact Ignore_inv t h

theorem execOps_inv (ops : List ScanOp) (t t2 : Tokenizer) (toks : List Token)
    (hx : execOps ops t = some (t2, toks)) (h : Inv t) : Inv t2 := by
  induction ops generalizing t toks with
  | nil =>
    simp only [execOps] at hx
    cases hx
    exact h
  | cons op ops ih =>
    simp only [execOps] at hx
    cases h1 : execOp op t with
    | none => rw [h1] at hx; simp at hx
    | some p =>
      obtain ⟨ta, toksa⟩ := p
      rw [h1] at hx
      cases h2 : execOps ops ta with
      | none => simp [h2] at hx
      | some q =>
        obtain ⟨tb, toksb⟩ := q
        simp only [h2] at hx
        cases hx
        exact ih ta toksb h2 (execOp_inv op t ta toksa h1 h)

theorem Emit_start (t : Tokenizer) (tt : TokenTy) : (Emit t tt).2.start = t.pos := by
  simp only [Emit]; split <;> rfl

theorem Emit_pos (t : Tokenizer) (tt : TokenTy) : (Emit t tt).2.pos = t.pos := by
  simp only [Emit]; split <;> rfl

theorem Emit_input (t : Tokenizer) (tt : TokenTy) : (Emit t tt).2.input = t.input := by
  simp only [Emit]; split <;> rfl

theorem Emit_val (t : Tokenizer) (tt : TokenTy) :
    (Emit t tt).1.val = goSlice t.input t.start t.pos := rfl

/-- The Go slice `s[p:p]` is empty. -/
theorem goSlice_self (s : List Nat) (p : Int) : goSlice s p p = [] := by
  simp only [goSlice]
  exact List.drop_eq_nil_of_le (List.length_take_le _ _)

/-- A terminating `run` always leaves the token channel closed. -/
theorem run_closes (fuel : Nat) (sf : Option StateFn) (t : Tokenizer) (c : Chan)
    (r : Tokenizer × Chan) (h : run fuel sf t c = some r) : r.2.closed = true := by
  induction fuel generalizing sf t c with
  | zero =>
    cases sf with
    | none => cases h; rfl
    | some s => cases s; simp [run] at h
  | succ n ih =>
    cases sf with
    | none => cases h; rfl
    | some s =>
      cases s with
      | mk f =>
        simp only [run] at h
        exact ih _ _ _ h

/-- A multi-line token category: a `TokenType` implementation answering
`CountNewLines() = true`, as a grammar would define for tokens whose text
spans lines. -/
def ML : TokenTy := { typ := "ML", countNewLines := true }

/-- A single-line token category (`CountNewLines() = false`). -/
def NUM : TokenTy := { typ := "NUM", countNewLines := false }

/-- C1 — code_bug evaluation.  Input `"a\nb\nc"`; a grammar reads each span
with `NextRune` and emits it with the multi-line category `ML`.  The second
emitted token starts at byte offset 2 while `input[0:2]` holds one newline,
so the claimed line number is 1 + 1 = 2 — but the token carries 3: the token
records `line` at the emit point (the end of its span, not its start), and
`Emit`'s bulk rescan re-counts the newlines `NextRune` already counted
per-rune (double counting), on top of `line` starting at 0 instead of 1. -/
theorem c1_token_line_divergence :
    (execOps [ScanOp.next, ScanOp.next, ScanOp.emit ML,
              ScanOp.next, ScanOp.next, ScanOp.next, ScanOp.emit ML]
        (New "t" [97, 10, 98, 10, 99])).map
        (fun p => p.2.map (fun tok => (tok.pos, tok.line)))
      = some [(0, 1), (2, 3)]
    ∧ (countNl (goSlice [97, 10, 98, 10, 99] 0 2) : Int) + 1 = 2
    ∧ (3 : Int) ≠ 2 := by
  decide

/-- C2 — code_bug evaluation.  Input `"a"`, `pos = 1 = len(input)` (the
state after reading the single byte): `NextRune` returns the replacement
character U+FFFD — a valid code point, not the out-of-range `eof` sentinel —
because the guard is `pos > len` instead of `pos >= len`.  It does leave
`pos` unchanged and records width 0. -/
theorem c2_end_of_input_divergence :
    (NextRune { New "t" [97] with pos := 1 }).1 = RuneError
    ∧ (NextRune { New "t" [97] with pos := 1 }).1 ≠ eof
    ∧ (NextRune { New "t" [97] with pos := 1 }).2.pos = 1
    ∧ (NextRune { New "t" [97] with pos := 1 }).2.width = 0 := by
  decide

/-- C3 — code_bug evaluation.  `New` omits a `line` initializer, so a newly
constructed tokenizer has line counter 0 (the Go zero value), not 1. -/
theorem c3_initial_line_divergence :
    (New "t" [97, 98]).line = 0 ∧ (New "t" [97, 98]).line ≠ 1 := by
  decide

/-- C4 — amended.  Once the driver loop reaches its terminal marker (`run`
returns, closing the channel — see `run_closes`) and the buffer is empty,
every `Next` call returns without blocking — but it yields the zero-value
`Token`, whose category is the nil interface value, not the reserved `EOF`
category. -/
theorem c4_next_after_close (fuel : Nat) (sf : Option StateFn) (t0 : Tokenizer)
    (c0 : Chan) (tr : Tokenizer) (c : Chan) (t : Tokenizer)
    (hrun : run fuel sf t0 c0 = some (tr, c)) (hbuf : c.buf = []) :
    Next t c = some (zeroToken, { t with oldPos := t.pos }, c)
    ∧ zeroToken.typ = none ∧ zeroToken.typ ≠ some EOF := by
  have hcl : c.closed = true := run_closes fuel sf t0 c0 (tr, c) hrun
  refine ⟨?_, rfl, by decide⟩
  simp [Next, recv, hbuf, hcl]

/-- The trivial terminal state function: returns the terminal marker at once. -/
def sfStop : StateFn := StateFn.mk (fun t => (none, t, []))

/-- C4 — witness: a one-step driver run closes the channel, after which
`Next` yields the zero-value token. -/
theorem c4_witness :
    Next (New "t" []) { buf := [], closed := true }
      = some (zeroToken, { (New "t" []) with oldPos := (New "t" []).pos },
              { buf := [], closed := true })
    ∧ zeroToken.typ = none ∧ zeroToken.typ ≠ some EOF :=
  c4_next_after_close 1 (some sfStop) (New "t" []) { buf := [], closed := false }
    (New "t" []) { buf := [], closed := true } (New "t" []) (by rfl) rfl

/-- C4 — counterexample to the claim as stated: after close, the token
yielded by `Next` carries the nil category, which is not the reserved `EOF`
token type. -/
theorem c4_counterexample :
    (Next (New "t" []) { buf := [], closed := true }).map (fun x => x.1.typ)
      = some none
    ∧ some EOF ≠ (none : Option TokenTy) := by
  decide

/-- C5 — amended.  `Next` never writes `pos`, `start`, `line` or `width`,
and the token it returns is determined by the channel alone (independent of
every engine field); `Drain` returns the engine unchanged and its effect is
engine-independent.  However `Next` does read `pos` and write `oldPos`
(`t.oldPos = t.pos`) on every call. -/
theorem c5_next_drain_frame (t u : Tokenizer) (c : Chan) :
    ((Next t c).map (fun x => (x.2.1.pos, x.2.1.start, x.2.1.line, x.2.1.width)))
      = ((recv c).map (fun _ => (t.pos, t.start, t.line, t.width)))
    ∧ ((Next t c).map (fun x => x.2.1.oldPos)) = ((recv c).map (fun _ => t.pos))
    ∧ ((Next t c).map (fun x => x.1)) = ((Next u c).map (fun x => x.1))
    ∧ ((Drain t c).map (fun x => x.1)) = ((Drain t c).map (fun _ => t))
    ∧ ((Drain t c).map (fun x => x.2)) = ((Drain u c).map (fun x => x.2))
    ∧ (Drain t c).isSome = (Drain u c).isSome := by
  rcases hr : recv c with _ | ⟨tok, c1⟩ <;> by_cases hc : c.closed <;>
    simp [Next, Drain, hr, hc]

/-- An arbitrary token sitting in the channel. -/
def tokA : Token := { typ := some Error, val := [], pos := 0, line := 0 }

/-- An engine state whose scan position is 5 and recorded `oldPos` is 0. -/
def t5 : Tokenizer := { New "t" [] with pos := 5 }

/-- C5 — counterexample to the claim as stated: a `Next` call mutates the
engine (it writes `oldPos`), and the value written is read from `pos`. -/
theorem c5_counterexample :
    Next t5 { buf := [tokA], closed := false }
      = some (tokA, { t5 with oldPos := 5 }, { buf := [], closed := false })
    ∧ ({ t5 with oldPos := 5 } : Tokenizer) ≠ t5
    ∧ ((Next { t5 with pos := 7 } { buf := [tokA], closed := false }).map
        (fun x => x.2.1.oldPos)) = some 7 := by
  decide

/-- C6 — confirmed.  From a freshly constructed tokenizer, any well-behaved
sequence of cursor, boundary and match operations (the state-function
contract: `Backup` only immediately after a read) preserves
`0 ≤ start ≤ pos ≤ len(input)`. -/
theorem c6_positional_invariant (nm : String) (input : List Nat)
    (ops : List ScanOp) (t2 : Tokenizer) (toks : List Token)
    (hx : execOps ops (New nm input) = some (t2, toks)) :
    0 ≤ t2.start ∧ t2.start ≤ t2.pos ∧ t2.pos ≤ (t2.input.length : Int) := by
  refine execOps_inv ops (New nm input) t2 toks hx ?_
  refine ⟨le_rfl, le_rfl, ?_⟩
  exact Int.ofNat_nonneg _

/-- The digit alphabet `"0123456789"`. -/
def digits : List Nat := [48, 49, 50, 51, 52, 53, 54, 55, 56, 57]

/-- A concrete well-behaved operation sequence over the input `"12x"`. -/
def c6ops : List ScanOp :=
  [ScanOp.matchMany 4 digits, ScanOp.emit NUM,
   ScanOp.peek, ScanOp.next, ScanOp.readBackup, ScanOp.ignore]

/-- The engine state after running `c6ops` on `"12x"`. -/
def c6res : Tokenizer :=
  { name := "n", input := [49, 50, 120], start := 3, endP := 0, pos := 3,
    oldPos := 0, width := 0, line := 0 }

/-- C6 — witness at a concrete run. -/
theorem c6_witness :
    execOps c6ops (New "n" [49, 50, 120])
      = some (c6res, [{ typ := some NUM, val := [49, 50], pos := 0, line := 0 }])
    ∧ (0 ≤ c6res.start ∧ c6res.start ≤ c6res.pos
       ∧ c6res.pos ≤ (c6res.input.length : Int)) :=
  ⟨by decide,
   c6_positional_invariant "n" [49, 50, 120] c6ops c6res
     [{ typ := some NUM, val := [49, 50], pos := 0, line := 0 }] (by decide)⟩

/-- C7 — confirmed.  Wherever `NextRune` reads a code point
(`0 ≤ pos < len(input)`), an immediate `Backup` restores `pos` and `line`
exactly, for single- and multi-byte code points and across a newline. -/
theorem c7_backup_exact (t : Tokenizer) (h0 : 0 ≤ t.pos)
    (hread : t.pos < (t.input.length : Int)) :
    (Backup (NextRune t).2).pos = t.pos ∧ (Backup (NextRune t).2).line = t.line :=
  ⟨readBackup_pos t h0, readBackup_line t h0⟩

/-- A state about to read the newline that follows a two-byte code point. -/
def w7 : Tokenizer := { New "t" [195, 169, 10] with pos := 2, line := 7 }

/-- C7 — witness at a concrete state (reading the newline byte). -/
theorem c7_witness :
    ((0 : Int) ≤ w7.pos ∧ w7.pos < (w7.input.length : Int))
    ∧ ((Backup (NextRune w7).2).pos = w7.pos
       ∧ (Backup (NextRune w7).2).line = w7.line) :=
  ⟨⟨by decide, by decide⟩, c7_backup_exact w7 (by decide) (by decide)⟩

/-- C8 — confirmed.  For any engine state with `start ≤ pos`, `Emit`
produces the token text `input[start:pos]`, leaves `start = pos`, and an
immediately following `Emit` (no intervening read) yields empty text. -/
theorem c8_emit_slicing (t : Tokenizer) (tt tt2 : TokenTy) (h : t.start ≤ t.pos) :
    (Emit t tt).1.val = goSlice t.input t.start t.pos
    ∧ (Emit t tt).2.start = (Emit t tt).2.pos
    ∧ (Emit (Emit t tt).2 tt2).1.val = [] := by
  refine ⟨rfl, ?_, ?_⟩
  · rw [Emit_start, Emit_pos]
  · rw [Emit_val, Emit_input, Emit_start, Emit_pos]
    exact goSlice_self _ _

/-- A state with an accumulated span `input[1:3]`. -/
def w8 : Tokenizer := { New "t" [97, 98, 99] with start := 1, pos := 3 }

/-- C8 — witness at a concrete state. -/
theorem c8_witness :
    w8.start ≤ w8.pos
    ∧ ((Emit w8 NUM).1.val = goSlice w8.input w8.start w8.pos
       ∧ (Emit w8 NUM).2.start = (Emit w8 NUM).2.pos
       ∧ (Emit (Emit w8 NUM).2 NUM).1.val = []) :=
  ⟨by decide, c8_emit_slicing w8 NUM NUM (by decide)⟩

/-- C9 — amended.  `Peek` leaves `pos` and `line` unchanged and overwrites
the recorded width with the decoded width of the peeked rune — at least 1
whenever `pos < len(input)`, but 0 at `pos = len(input)` (where the peeked
rune is the replacement character, not the `eof` sentinel) — and a `Backup`
immediately after `Peek` moves `pos` backwards by that recorded width. -/
theorem c9_peek_effect (t : Tokenizer) (h0 : 0 ≤ t.pos)
    (hle : t.pos ≤ (t.input.length : Int)) :
    (Peek t).2.pos = t.pos
    ∧ (Peek t).2.line = t.line
    ∧ (Peek t).2.width = ((decodeRune (t.input.drop t.pos.toNat)).2 : Int)
    ∧ (t.pos < (t.input.length : Int) → 1 ≤ (Peek t).2.width)
    ∧ (Backup (Peek t).2).pos = t.pos - (Peek t).2.width := by
  have hpos : (Peek t).2.pos = t.pos := by
    rw [Peek_snd]; exact readBackup_pos t h0
  have hwidth : (Peek t).2.width = ((decodeRune (t.input.drop t.pos.toNat)).2 : Int) := by
    rw [Peek_snd, Backup_width]; exact NextRune_width t h0
  refine ⟨hpos, ?_, hwidth, ?_, ?_⟩
  · rw [Peek_snd]; exact readBackup_line t h0
  · intro hlt
    rw [hwidth]
    have hne : t.input.drop t.pos.toNat ≠ [] := by
      intro hnil
      have hld := congrArg List.length hnil
      rw [List.length_drop] at hld
      simp at hld
      omega
    have hw1 := (decode_width_bounds (t.input.drop t.pos.toNat)).2 hne
    omega
  · rw [Backup_pos, hpos]

/-- A state at the very end of the input `"a"`, with a stale recorded width. -/
def w9 : Tokenizer := { New "t" [97] with pos := 1, width := 1 }

/-- C9 — counterexample to the claim as stated: at `pos = len(input)` the
peeked rune is not the `eof` sentinel, yet the recorded width is overwritten
with 0, not the nonzero width the claim asserts for non-sentinel runes. -/
theorem c9_counterexample :
    (Peek w9).1 ≠ eof ∧ (Peek w9).2.width = 0 := by
  decide

/-- A state about to peek a two-byte code point. -/
def w9b : Tokenizer := { New "t" [195, 169] with line := 4 }

/-- C9 — witness at a concrete state. -/
theorem c9_witness :
    ((0 : Int) ≤ w9b.pos ∧ w9b.pos ≤ (w9b.input.length : Int))
    ∧ ((Peek w9b).2.pos = w9b.pos
       ∧ (Peek w9b).2.line = w9b.line
       ∧ (Peek w9b).2.width = ((decodeRune (w9b.input.drop w9b.pos.toNat)).2 : Int)
       ∧ (w9b.pos < (w9b.input.length : Int) → 1 ≤ (Peek w9b).2.width)
       ∧ (Backup (Peek w9b).2).pos = w9b.pos - (Peek w9b).2.width) :=
  ⟨⟨by decide, by decide⟩, c9_peek_effect w9b (by decide) (by decide)⟩

/-- C10 — code_bug evaluation.  With an alphabet containing U+FFFD (its
UTF-8 encoding `EF BF BD`) and the scan at the end of input, `MatchMany`
never returns, for any iteration bound: at `pos = len` `NextRune` yields the
replacement character with width 0 instead of the `eof` sentinel, the
alphabet contains it, so the loop re-reads the same position forever. -/
theorem c10_matchmany_nonterminating (fuel : Nat) :
    MatchMany fuel (New "t" []) [0xEF, 0xBF, 0xBD] = none := by
  induction fuel with
  | zero => rfl
  | succ n ih =>
    have h1 : NextRune (New "t" []) = (RuneError, New "t" []) := by decide
    have h2 : containsRune [0xEF, 0xBF, 0xBD] RuneError = true := by decide
    simp only [MatchMany, h1, h2, if_true]
    exact ih

end tokenizer
